import Mathlib

/-!
Verification of the cachebox caching library (github.com/romanodesouza/cachebox).

The Go sources are shallowly embedded: byte slices become `Option (List Nat)`
(`none` models a nil slice), `int64` becomes `Int` (with two's-complement views
taken explicitly where the code reinterprets bits), Go's `(value, error)`
convention and runtime panics become `Except GoErr`, and the storage backend is
an explicit record of functions whose invocations are logged so that claims
about which store calls happen can be stated.
-/

namespace Cachebox

/-- A byte, modelled as `Nat` (the code only produces values below 256). -/
abbrev Byte := Nat

/-- A non-nil Go byte slice. -/
abbrev Bytes := List Byte

/-- Outcomes of a Go call that does not return normally: an `error` value
(identified by a numeric code, since the library only passes errors through),
or a runtime panic (nil dereference, slice index out of range, ...). -/
inductive GoErr where
  | fail (code : Nat)
  | panics
  deriving DecidableEq

deriving instance DecidableEq for Except

/-- Go `uint64(i)`: the two's-complement view of an `int64` as an unsigned
64-bit number. -/
def toUint64 (i : Int) : Nat := (i % (18446744073709551616 : Int)).toNat

/-- Value of `binary.LittleEndian.Uint64` on the first 8 bytes of `b`
(bytes are reduced mod 256, which is the identity on real byte values). -/
def leUint64 (b : Bytes) : Nat :=
  (List.range 8).foldr (fun k acc => b.getD k 0 % 256 * 256 ^ k + acc) 0

/-- Signed reinterpretation `int64(u)` of an unsigned 64-bit value. -/
def toInt64 (u : Nat) : Int :=
  if u < 9223372036854775808 then (u : Int) else (u : Int) - 18446744073709551616

/-- The signed little-endian value of the first 8 bytes of `b`
(total helper; the embedded code guards the length explicitly). -/
def leInt64 (b : Bytes) : Int := toInt64 (leUint64 b)

/-- `marshalInt64` (cachens.go): 8-byte little-endian encoding of an `int64`
via `binary.LittleEndian.PutUint64`. -/
def marshalInt64 (i : Int) : Bytes :=
  (List.range 8).map (fun k => toUint64 i / 256 ^ k % 256)

/-- `unmarshalInt64` (cachens.go): `int64(binary.LittleEndian.Uint64(b))`;
`Uint64` panics when `b` holds fewer than 8 bytes. -/
def unmarshalInt64 (b : Bytes) : Except GoErr Int :=
  if 8 ≤ b.length then .ok (leInt64 b) else .error .panics

/-- `splitVersion` (cachens.go): `unmarshalInt64(b[:8])` and the remainder
`b[8:]`; both slicings panic when `b` holds fewer than 8 bytes. -/
def splitVersion (b : Bytes) : Except GoErr (Int × Bytes) :=
  if 8 ≤ b.length then
    match unmarshalInt64 (b.take 8) with
    | .ok version => .ok (version, b.drop 8)
    | .error e => .error e
  else .error .panics

/-- Decimal digits, most significant first, by structural recursion on a fuel
bound (so that concrete values reduce definitionally); any fuel above the
number itself is enough. -/
def natDecimalDigitsAux : Nat → Nat → List Nat
  | 0, _ => []
  | fuel + 1, n => if n < 10 then [n] else natDecimalDigitsAux fuel (n / 10) ++ [n % 10]

/-- Decimal digits of a natural number, most significant first
(single digit for `n < 10`). -/
def natDecimalDigits (n : Nat) : List Nat := natDecimalDigitsAux (n + 1) n

/-- ASCII characters of a digit list. -/
def digitsToChars (ds : List Nat) : List Char := ds.map (fun d => Char.ofNat (48 + d))

/-- Decimal rendering of a natural number. -/
def formatNat (n : Nat) : String := ⟨digitsToChars (natDecimalDigits n)⟩

/-- Model of Go `fmt.Sprintf` with verb `d` on an `int64`: base-10 digits,
preceded by a minus sign for negative values. -/
def formatInt64 (v : Int) : String :=
  if v < 0 then "-" ++ formatNat (-v).toNat else formatNat v.toNat

/-- `buildRecyclableKey` (storage.go): `fmt.Sprintf` of the recyclable wire key. -/
def buildRecyclableKey (key : String) : String := "cachebox:rk:" ++ key

/-- `buildVersionedKey` (storage.go): `fmt.Sprintf` of the versioned wire key. -/
def buildVersionedKey (key : String) (version : Int) : String :=
  "cachebox:v" ++ formatInt64 version ++ ":" ++ key

/-- Numeric value of a decimal digit character. -/
def digitVal (c : Char) : Nat := c.toNat - 48

/-- Value of a most-significant-first decimal digit string. -/
def decimalValue (ds : List Char) : Nat := ds.foldl (fun a c => 10 * a + digitVal c) 0

/-- Parse an optionally minus-signed decimal string back to an integer
(specification-side inverse used to pin down "base-10 representation"). -/
def parseDecInt (s : String) : Int :=
  if s.data.head? = some '-' then -(decimalValue s.data.tail : Int)
  else (decimalValue s.data : Int)

theorem natDecimalDigitsAux_lt (fuel : Nat) :
    ∀ (n : Nat), ∀ d ∈ natDecimalDigitsAux fuel n, d < 10 := by
  induction fuel with
  | zero => intro n d hd; simp [natDecimalDigitsAux] at hd
  | succ fuel ih =>
    intro n d hd
    rw [natDecimalDigitsAux] at hd
    by_cases hn : n < 10
    · rw [if_pos hn] at hd
      simp only [List.mem_singleton] at hd
      omega
    · rw [if_neg hn] at hd
      rcases List.mem_append.1 hd with h | h
      · exact ih (n / 10) d h
      · simp only [List.mem_singleton] at h
        omega

theorem natDecimalDigits_lt (n : Nat) : ∀ d ∈ natDecimalDigits n, d < 10 :=
  natDecimalDigitsAux_lt (n + 1) n

theorem decimalValue_append_digit (ds : List Char) (c : Char) :
    decimalValue (ds ++ [c]) = 10 * decimalValue ds + digitVal c := by
  simp [decimalValue, List.foldl_append]

theorem toNat_ofNat_digit (d : Nat) (hd : d < 10) :
    (Char.ofNat (48 + d)).toNat = 48 + d := by
  interval_cases d <;> decide

theorem decimalValue_digitsToChars_aux (fuel : Nat) :
    ∀ n : Nat, n < fuel → decimalValue (digitsToChars (natDecimalDigitsAux fuel n)) = n := by
  induction fuel with
  | zero => intro n h; omega
  | succ fuel ih =>
    intro n h
    rw [natDecimalDigitsAux]
    by_cases hn : n < 10
    · rw [if_pos hn]
      simp [digitsToChars, decimalValue, digitVal, toNat_ofNat_digit n hn]
    · rw [if_neg hn]
      rw [digitsToChars, List.map_append, ← digitsToChars]
      simp only [List.map_cons, List.map_nil]
      rw [decimalValue_append_digit]
      have hdiv : n / 10 < n := Nat.div_lt_self (by omega) (by omega)
      rw [ih (n / 10) (by omega)]
      rw [digitVal, toNat_ofNat_digit (n % 10) (Nat.mod_lt _ (by omega))]
      omega

theorem decimalValue_digitsToChars (n : Nat) :
    decimalValue (digitsToChars (natDecimalDigits n)) = n :=
  decimalValue_digitsToChars_aux (n + 1) n (by omega)

theorem head_digitsToChars_ne_minus (n : Nat) (c : Char)
    (hc : c ∈ digitsToChars (natDecimalDigits n)) : c ≠ '-' := by
  rcases List.mem_map.1 hc with ⟨d, hd, rfl⟩
  have hlt := natDecimalDigits_lt n d hd
  have h48 : (Char.ofNat (48 + d)).toNat = 48 + d := toNat_ofNat_digit d hlt
  intro heq
  rw [heq, show ('-').toNat = 45 from rfl] at h48
  omega

theorem parseDecInt_formatNat (n : Nat) : parseDecInt (formatNat n) = n := by
  have hdata : (formatNat n).data = digitsToChars (natDecimalDigits n) := rfl
  rw [parseDecInt, hdata]
  have hif : (digitsToChars (natDecimalDigits n)).head? = some '-' → False := by
    intro h
    exact head_digitsToChars_ne_minus n '-' (List.mem_of_mem_head? h) rfl
  rw [if_neg hif]
  rw [decimalValue_digitsToChars]

theorem parseDecInt_formatInt64 (v : Int) : parseDecInt (formatInt64 v) = v := by
  rw [formatInt64]
  split
  · next hv =>
    have hdata : ("-" ++ formatNat (-v).toNat).data =
        '-' :: digitsToChars (natDecimalDigits (-v).toNat) := rfl
    rw [parseDecInt, hdata]
    rw [if_pos (show ('-' :: digitsToChars (natDecimalDigits (-v).toNat)).head? = some '-'
      from rfl)]
    rw [List.tail_cons, decimalValue_digitsToChars]
    omega
  · next hv =>
    rw [parseDecInt_formatNat]
    omega

/-- The request context, as observed by the library: the `WithRecompute` and
`WithBypass` markers (`IsRecompute` / `IsBypass` in cache.go), plus the value
`Now().UnixNano()` of the injectable package clock, frozen for the duration of
the call exactly as the tests freeze it. -/
structure Ctx where
  recompute : Bool
  bypass : Bool
  now : Int

/-- `Item` (storage.go): a cache item; a nil value slice is `none`. TTL is a
duration in nanoseconds. -/
structure Item where
  Key : String
  Value : Option Bytes
  TTL : Int
  deriving DecidableEq

/-- One call observed on the backing storage. -/
inductive StoreCall where
  | mget (keys : List String)
  | set (items : List Item)
  | del (keys : List String)
  deriving DecidableEq

/-- A backing storage (the `Storage` interface of storage.go): three
operations following Go's `(value, error)` convention. -/
structure Store where
  mget : List String → Except GoErr (List (Option Bytes))
  set : List Item → Except GoErr Unit
  del : List String → Except GoErr Unit

/-- `Cache` (cache.go): the façade over a storage, carrying the default
namespace-key TTL and the strategy toggle. -/
structure Cache where
  storage : Store
  nsttl : Int
  recyclable : Bool

/-- One hour in nanoseconds. -/
def hourNs : Int := 3600000000000

/-- `NewCache` (cache.go): defaults `nsttl = 12h`, `recyclable = true`, then
applies the options in order. -/
def NewCache (storage : Store) (opts : List (Cache → Cache)) : Cache :=
  opts.foldl (fun c opt => opt c) { storage := storage, nsttl := 12 * hourNs, recyclable := true }

/-- `WithDefaultNamespaceTTL` (cache.go). -/
def WithDefaultNamespaceTTL (ttl : Int) : Cache → Cache := fun c => { c with nsttl := ttl }

/-- `WithKeyBasedExpiration` (cache.go): switches to the versioned-key strategy. -/
def WithKeyBasedExpiration : Cache → Cache := fun c => { c with recyclable := false }

/-- `Cache.Get` (cache.go): short-circuits to a miss under recompute/bypass,
otherwise `MGet` of the single key returning slot 0 (Go `bb[0]` panics when the
reply is empty). The second component records the storage calls made. -/
def Cache.Get (c : Cache) (ctx : Ctx) (key : String) :
    Except GoErr (Option Bytes) × List StoreCall :=
  if ctx.recompute || ctx.bypass then (.ok none, [])
  else
    match c.storage.mget [key] with
    | .error e => (.error e, [.mget [key]])
    | .ok bb =>
      match bb[0]? with
      | some b => (.ok b, [.mget [key]])
      | none => (.error .panics, [.mget [key]])

/-- `Cache.GetMulti` (cache.go). -/
def Cache.GetMulti (c : Cache) (ctx : Ctx) (keys : List String) :
    Except GoErr (List (Option Bytes)) × List StoreCall :=
  if ctx.recompute || ctx.bypass then (.ok [], [])
  else
    match c.storage.mget keys with
    | .error e => (.error e, [.mget keys])
    | .ok bb => (.ok bb, [.mget keys])

/-- `Cache.Set` (cache.go): short-circuits under bypass. -/
def Cache.Set (c : Cache) (ctx : Ctx) (item : Item) : Except GoErr Unit × List StoreCall :=
  if ctx.bypass then (.ok (), [])
  else (c.storage.set [item], [.set [item]])

/-- `Cache.SetMulti` (cache.go): forwards the whole batch as one `Set` call. -/
def Cache.SetMulti (c : Cache) (ctx : Ctx) (items : List Item) :
    Except GoErr Unit × List StoreCall :=
  if ctx.bypass then (.ok (), [])
  else (c.storage.set items, [.set items])

/-- `Cache.Delete` (cache.go). -/
def Cache.Delete (c : Cache) (ctx : Ctx) (key : String) : Except GoErr Unit × List StoreCall :=
  if ctx.bypass then (.ok (), [])
  else (c.storage.del [key], [.del [key]])

/-- `Cache.DeleteMulti` (cache.go). -/
def Cache.DeleteMulti (c : Cache) (ctx : Ctx) (keys : List String) :
    Except GoErr Unit × List StoreCall :=
  if ctx.bypass then (.ok (), [])
  else (c.storage.del keys, [.del keys])

/-- `CacheNS` (cachens.go): a namespace handle; `nsversion = 0` means
"not yet resolved". -/
structure CacheNS where
  cache : Cache
  nskeys : List String
  nsversion : Int

/-- `NewCacheNS` (cachens.go). -/
def NewCacheNS (c : Cache) (nskeys : List String) : CacheNS :=
  { cache := c, nskeys := nskeys, nsversion := 0 }

/-- The loop body of `CacheNS.mostRecentTimestamp` (cachens.go): walks the
namespace keys, reading `bb[i]` (panics when the reply is shorter than the key
list, and `unmarshalInt64` panics on a short value), schedules a seeding item
for each nil slot, and keeps the running maximum starting from 0. -/
def mostRecentTimestampLoop (now nsttl : Int) :
    List String → List (Option Bytes) → Int → List Item → Except GoErr (Int × List Item)
  | [], _, acc, items => .ok (acc, items)
  | _ :: _, [], _, _ => .error .panics
  | k :: ks, b :: bs, acc, items =>
    match b with
    | none =>
      let timestamp := now
      mostRecentTimestampLoop now nsttl ks bs (if timestamp > acc then timestamp else acc)
        (items ++ [{ Key := k, Value := some (marshalInt64 timestamp), TTL := nsttl }])
    | some w =>
      match unmarshalInt64 w with
      | .error e => .error e
      | .ok timestamp =>
        mostRecentTimestampLoop now nsttl ks bs
          (if timestamp > acc then timestamp else acc) items

/-- `CacheNS.mostRecentTimestamp` (cachens.go): the loop above, then a single
`Set` of the scheduled items when any exist. On a `Set` failure Go returns
`(-1, err)`; both callers discard the `-1` and propagate the error, so only the
error is kept here. -/
def CacheNS.mostRecentTimestamp (c : CacheNS) (now : Int) (keys : List String)
    (bb : List (Option Bytes)) : Except GoErr Int × List StoreCall :=
  match mostRecentTimestampLoop now c.cache.nsttl keys bb 0 [] with
  | .error e => (.error e, [])
  | .ok (ts, items) =>
    if items.length > 0 then
      match c.cache.storage.set items with
      | .error e => (.error e, [.set items])
      | .ok _ => (.ok ts, [.set items])
    else (.ok ts, [])

/-- Lines 211-255 of `CacheNS.Get` (cachens.go): resolve the namespace version
if needed and produce the candidate data slot `b`. Returns the candidate, the
updated handle and the storage calls made. Go's `bb[len(bb)-1]` and `bb[0]`
panic on an empty reply. -/
def CacheNS.getResolve (c : CacheNS) (now : Int) (key : String) :
    Except GoErr (Option Bytes) × CacheNS × List StoreCall :=
  if c.nsversion = 0 then
    let keys := if c.cache.recyclable then c.nskeys ++ [buildRecyclableKey key] else c.nskeys
    match c.cache.storage.mget keys with
    | .error e => (.error e, c, [.mget keys])
    | .ok bb =>
      match c.mostRecentTimestamp now c.nskeys bb with
      | (.error e, log1) => (.error e, c, .mget keys :: log1)
      | (.ok ts, log1) =>
        let c1 := { c with nsversion := ts }
        if !c.cache.recyclable then
          match c.cache.storage.mget [buildVersionedKey key ts] with
          | .error e => (.error e, c1, .mget keys :: log1 ++ [.mget [buildVersionedKey key ts]])
          | .ok bb2 =>
            match bb2.getLast? with
            | some b => (.ok b, c1, .mget keys :: log1 ++ [.mget [buildVersionedKey key ts]])
            | none => (.error .panics, c1, .mget keys :: log1 ++ [.mget [buildVersionedKey key ts]])
        else
          match bb.getLast? with
          | some b => (.ok b, c1, .mget keys :: log1)
          | none => (.error .panics, c1, .mget keys :: log1)
  else
    let key1 := if c.cache.recyclable then buildRecyclableKey key else buildVersionedKey key c.nsversion
    match c.cache.storage.mget [key1] with
    | .error e => (.error e, c, [.mget [key1]])
    | .ok bb =>
      match bb[0]? with
      | some b => (.ok b, c, [.mget [key1]])
      | none => (.error .panics, c, [.mget [key1]])

/-- Lines 257-277 of `CacheNS.Get` (cachens.go): the common tail after the
candidate slot is known - recompute/bypass short-circuit, nil-miss check, and
under the recyclable strategy the version-prefix comparison. -/
def CacheNS.getFinish (recyclable : Bool) (nsversion : Int) (ctx : Ctx) (b : Option Bytes) :
    Except GoErr (Option Bytes) :=
  if ctx.recompute || ctx.bypass then .ok none
  else
    match b with
    | none => .ok none
    | some w =>
      if recyclable then
        match splitVersion w with
        | .error e => .error e
        | .ok (version, rest) => if nsversion > version then .ok none else .ok (some rest)
      else .ok (some w)

/-- `CacheNS.Get` (cachens.go): resolution followed by the common tail. -/
def CacheNS.Get (c : CacheNS) (ctx : Ctx) (key : String) :
    Except GoErr (Option Bytes) × CacheNS × List StoreCall :=
  match c.getResolve ctx.now key with
  | (.error e, c1, log) => (.error e, c1, log)
  | (.ok b, c1, log) => (CacheNS.getFinish c1.cache.recyclable c1.nsversion ctx b, c1, log)

/-- The write tail of `CacheNS.Set` (cachens.go): rewrite the item for the
active strategy (recyclable prepends the encoded version to the value - Go's
`append` on a nil value still yields the 8 prefix bytes) and forward one `Set`. -/
def CacheNS.setWrite (c : CacheNS) (item : Item) : Except GoErr Unit × List StoreCall :=
  let item1 :=
    if c.cache.recyclable then
      { item with Key := buildRecyclableKey item.Key,
                  Value := some (marshalInt64 c.nsversion ++ item.Value.getD []) }
    else { item with Key := buildVersionedKey item.Key c.nsversion }
  (c.cache.storage.set [item1], [.set [item1]])

/-- `CacheNS.Set` (cachens.go): bypass short-circuit, then resolution of the
namespace version if needed, then the strategy-specific write. -/
def CacheNS.Set (c : CacheNS) (ctx : Ctx) (item : Item) :
    Except GoErr Unit × CacheNS × List StoreCall :=
  if ctx.bypass then (.ok (), c, [])
  else if c.nsversion = 0 then
    match c.cache.storage.mget c.nskeys with
    | .error e => (.error e, c, [.mget c.nskeys])
    | .ok bb =>
      match c.mostRecentTimestamp ctx.now c.nskeys bb with
      | (.error e, log1) => (.error e, c, .mget c.nskeys :: log1)
      | (.ok ts, log1) =>
        let c1 := { c with nsversion := ts }
        let w := c1.setWrite item
        (w.1, c1, .mget c.nskeys :: log1 ++ w.2)
  else
    let w := c.setWrite item
    (w.1, c, w.2)

/-- One call observed on a tier of the tiered store, tagged with the tier's
position in `storages`. -/
inductive TierCall where
  | mget (tier : Nat) (keys : List String)
  | set (tier : Nat) (items : List Item)
  | del (tier : Nat) (keys : List String)
  deriving DecidableEq

/-- The loop of `MultiStorage.MGet` building `keymap` and `miss`
(multistorage.go lines 47-54): `keymap[keys[idx]] = idx` (later entries
overwrite earlier ones, as in a Go map) and `miss` collects `keys[idx]` in
order; `keys[idx]` panics when a reply index exceeds the key count. -/
def buildKeymapMiss (keys : List String) :
    List Nat → (String → Nat) → List String → Except GoErr ((String → Nat) × List String)
  | [], km, miss => .ok (km, miss)
  | idx :: rest, km, miss =>
    match keys[idx]? with
    | none => .error .panics
    | some k => buildKeymapMiss keys rest (fun s => if s = k then idx else km s) (miss ++ [k])

/-- The inner loop of `MultiStorage.MGet` over one tier's reply
(multistorage.go lines 66-75): misses are re-collected into `newMiss`, hits are
slotted back at `keymap[key]`; `miss[i]` panics when the reply is longer than
the query. -/
def slotLoop (keymap : String → Nat) :
    List (Option Bytes) → List String → List (Option Bytes) → List String →
    Except GoErr (List (Option Bytes) × List String)
  | [], _, bb, newMiss => .ok (bb, newMiss)
  | _ :: _, [], _, _ => .error .panics
  | none :: res, k :: miss, bb, newMiss => slotLoop keymap res miss bb (newMiss ++ [k])
  | some v :: res, k :: miss, bb, newMiss =>
    slotLoop keymap res miss (bb.set (keymap k) (some v)) newMiss

/-- The tier loop of `MultiStorage.MGet` (multistorage.go lines 56-78): each
subsequent tier is queried with the current `miss` list (even when it is
empty); a tier error returns immediately. -/
def tierLoop (keymap : String → Nat) :
    List Store → Nat → List String → List (Option Bytes) → List TierCall →
    Except GoErr (List (Option Bytes)) × List TierCall
  | [], _, _, bb, log => (.ok bb, log)
  | s :: rest, i, miss, bb, log =>
    match s.mget miss with
    | .error e => (.error e, log ++ [.mget i miss])
    | .ok res =>
      match slotLoop keymap res miss bb [] with
      | .error e => (.error e, log ++ [.mget i miss])
      | .ok (bb1, newMiss) => tierLoop keymap rest (i + 1) newMiss bb1 (log ++ [.mget i miss])

/-- `MultiStorage.MGet` (multistorage.go): query the first tier with all keys
(`m.storages[0]` panics when the tier list is empty), return early when nothing
missed, otherwise walk the remaining tiers with the still-missing keys.
`missIdx` ranges over the first tier's reply. -/
def MultiStorage.MGet (storages : List Store) (keys : List String) :
    Except GoErr (List (Option Bytes)) × List TierCall :=
  match storages with
  | [] => (.error .panics, [])
  | s0 :: rest =>
    match s0.mget keys with
    | .error e => (.error e, [.mget 0 keys])
    | .ok bb =>
      let missIdx := (List.range bb.length).filter (fun i => bb.getD i none = none)
      if missIdx.length = 0 then (.ok bb, [.mget 0 keys])
      else
        match buildKeymapMiss keys missIdx (fun _ => 0) [] with
        | .error e => (.error e, [.mget 0 keys])
        | .ok (keymap, miss) => tierLoop keymap rest 1 miss bb [.mget 0 keys]

/-- `StorageHooks` (storage.go): an optional hook per slot; hook functions are
identified by opaque ids, since only their identity and order matter for the
wrapping claims. -/
structure StorageHooks where
  AfterMGet : Option Nat
  BeforeSet : Option Nat
  AfterSet : Option Nat
  deriving DecidableEq

/-- A value of the `Storage` interface as seen by `newStorageWrapper`
(storage.go): either some non-wrapper implementation (identified opaquely) or a
`storageWrapper` with its inner storage and its three hook chains. -/
inductive GoStorage where
  | base (id : Nat)
  | wrapper (inner : GoStorage) (afterMGet beforeSet afterSet : List Nat)
  deriving DecidableEq

/-- `newStorageWrapper` (storage.go lines 67-91): copy the wrapper when the
argument already is one (`w = *sw`), otherwise embed the storage; then append
every present hook of every `StorageHooks` argument, in order. -/
def newStorageWrapper (storage : GoStorage) (hooks : List StorageHooks) : GoStorage :=
  let start :=
    match storage with
    | .wrapper inner a b c => (inner, a, b, c)
    | s => (s, [], [], [])
  let fini := hooks.foldl
    (fun (acc : GoStorage × List Nat × List Nat × List Nat) h =>
      (acc.1, acc.2.1 ++ h.AfterMGet.toList, acc.2.2.1 ++ h.BeforeSet.toList,
        acc.2.2.2 ++ h.AfterSet.toList))
    start
  .wrapper fini.1 fini.2.1 fini.2.2.1 fini.2.2.2

/-- Running an after-read hook chain on one slot, as `storageWrapper.MGet`
does (storage.go lines 100-110): each hook in chain order, threading the bytes,
stopping at the first error. `interp` gives each hook id its function. -/
def runAfterMGetChain (interp : Nat → Option Bytes → Except GoErr (Option Bytes)) :
    List Nat → Option Bytes → Except GoErr (Option Bytes)
  | [], b => .ok b
  | h :: rest, b =>
    match interp h b with
    | .error e => .error e
    | .ok b1 => runAfterMGetChain interp rest b1

/-- Gzip-reader failures: the `gzip.ErrHeader` condition, or any other error. -/
inductive GzipErr where
  | errHeader
  | other (code : Nat)
  deriving DecidableEq

/-- The RFC 1952 magic bytes `0x1f 0x8b`. -/
def gzipMagic : Bytes := [31, 139]

/-- Whether the Go gzip writer accepts the level (`gzip.NewWriterLevel`
errors outside HuffmanOnly -2 .. BestCompression 9). -/
def gzipValidLevel (level : Int) : Bool := (-2 ≤ level && level ≤ 9)

/-- Modelled from the spec: the Go standard library gzip writer (not part of
this repository). Per spec sections 4.4 and 6, the output is a standard RFC
1952 container whose inflation restores the input exactly and which starts
with the magic bytes `0x1f 0x8b`; the container body is modelled as the stored
payload, which satisfies exactly those two properties. All valid levels
produce a valid container, differing only in compression ratio. -/
def gzipEncodeStream (b : Bytes) : Bytes := gzipMagic ++ b

/-- Modelled from the spec: the Go standard library gzip reader (not part of
this repository). Per spec section 4.4, "gzip detection uses the canonical
magic bytes `0x1f 0x8b` at offsets 0 and 1" and a missing header surfaces as
the invalid-header condition (`gzip.ErrHeader`); otherwise the stream is
inflated fully. -/
def gzipReadStream (b : Bytes) : Except GzipErr Bytes :=
  if b.take 2 = gzipMagic then .ok (b.drop 2) else .error .errHeader

/-- `gzipData` (gzip source file): `gzip.NewWriterLevel` fails on an invalid
level (surfaced as a Go error), otherwise write and close, returning the
buffer. -/
def gzipData (b : Bytes) (level : Int) : Except GoErr Bytes :=
  if gzipValidLevel level then .ok (gzipEncodeStream b) else .error (.fail 900)

/-- `gunzipData` (gzip source file): `gzip.ErrHeader` passes the input through
unchanged (legacy uncompressed values), any other reader error is returned,
otherwise `io.Copy` inflates fully. -/
def gunzipData (b : Bytes) : Except GoErr Bytes :=
  match gzipReadStream b with
  | .error .errHeader => .ok b
  | .error (.other code) => .error (.fail code)
  | .ok payload => .ok payload

/-- The before-write hook installed by `WithGzipCompression`: nil values pass
through, others are compressed. -/
def gzipCompress (level : Int) (item : Item) : Except GoErr Item :=
  match item.Value with
  | none => .ok item
  | some v =>
    match gzipData v level with
    | .ok v1 => .ok { item with Value := some v1 }
    | .error e => .error e

/-- The after-read hook installed by `WithGzipCompression`: nil slots pass
through, others are inflated. -/
def gzipUncompress (b : Option Bytes) : Except GoErr (Option Bytes) :=
  match b with
  | none => .ok none
  | some v =>
    match gunzipData v with
    | .ok w => .ok (some w)
    | .error e => .error e

/-- An in-flight entry of the key-lock coordinator (keylock.go `item`):
the waiter counter, the result bytes and whether `done` has been closed. -/
structure KLItem where
  pending : Int
  b : Option Bytes
  doneClosed : Bool
  deriving DecidableEq

/-- The key-lock coordinator's synchronized map (keylock.go `contention`). -/
structure KLState where
  items : List (String × KLItem)
  deriving DecidableEq

/-- Go map lookup `c.items[key]`: `none` models the nil pointer `i`. -/
def klLookup (m : List (String × KLItem)) (k : String) : Option KLItem :=
  (m.find? (fun p => p.1 = k)).map (fun p => p.2)

/-- Go map update (the entry `i` is a shared pointer; writing through it
updates the mapped entry). -/
def klUpdate (m : List (String × KLItem)) (k : String) (v : KLItem) :
    List (String × KLItem) :=
  m.map (fun p => if p.1 = k then (k, v) else p)

/-- `contention.delete` (keylock.go): remove the key from the map. -/
def klDelete (m : List (String × KLItem)) (k : String) : List (String × KLItem) :=
  m.filter (fun p => ¬(p.1 = k))

/-- `contention.AfterSet` (keylock.go lines 84-100): look the key up; when an
entry exists, store the value and close `done` (closing an already-closed
channel panics); then unconditionally read `i.totPending()` - when the lookup
missed, `i` is the nil pointer and `atomic.LoadInt32(&i.pending)` dereferences
it, a runtime panic - and delete the entry when no waiter is pending. -/
def contentionAfterSet (c : KLState) (item : Item) : Except GoErr KLState :=
  match klLookup c.items item.Key with
  | some i =>
    if i.doneClosed then .error .panics
    else
      let i1 : KLItem := { i with b := item.Value, doneClosed := true }
      let c1 : KLState := ⟨klUpdate c.items item.Key i1⟩
      if i1.pending = 0 then .ok ⟨klDelete c1.items item.Key⟩ else .ok c1
  | none => .error .panics

/-! Specification-side definitions, written from the spec's wording, used to
compare the embedded code against the claims. -/

/-- Spec 4.8.1: `tᵢ` is the decoded value of a non-nil namespace slot and the
clock time for a nil slot. -/
def slotTimestamp (now : Int) (slot : Option Bytes) : Int :=
  match slot with
  | none => now
  | some w => leInt64 w

/-- Spec 4.8.1: the items scheduled for the seeding Set - one per nil slot,
carrying the encoded clock time and the default namespace TTL. -/
def scheduledItems (now nsttl : Int) (keys : List String) (bb : List (Option Bytes)) :
    List Item :=
  (keys.zip bb).filterMap (fun p =>
    match p.2 with
    | none => some { Key := p.1, Value := some (marshalInt64 now), TTL := nsttl }
    | some _ => none)

/-- The version the resolution actually computes: the running maximum of the
slot timestamps, started from 0 (the loop accumulator's initial value). -/
def resolvedVersion (now : Int) (keys : List String) (bb : List (Option Bytes)) : Int :=
  ((bb.take keys.length).map (slotTimestamp now)).foldl max 0

/-- A tier behaving as a positional key/value lookup: the store contract of
spec 4.1 (positionally aligned reply, one slot per key). -/
def mkKVStore (f : String → Option Bytes) : Store :=
  { mget := fun ks => .ok (ks.map f), set := fun _ => .ok (), del := fun _ => .ok () }

/-- A store whose reads fail with the given error. -/
def mkErrStore (e : GoErr) : Store :=
  { mget := fun _ => .error e, set := fun _ => .ok (), del := fun _ => .ok () }

/-- Spec 4.2: the value of a key under a tier list - the leftmost tier holding
it, `none` when every tier misses. -/
def firstHit : List (String → Option Bytes) → String → Option Bytes
  | [], _ => none
  | f :: fs, k =>
    match f k with
    | some v => some v
    | none => firstHit fs k

/-- Filling the misses of one lookup with another (what slotting one tier's
hits into the accumulated reply does, described per key). -/
def hitOverride (g f : String → Option Bytes) : String → Option Bytes :=
  fun k =>
    match g k with
    | some v => some v
    | none => f k

/-- Spec 4.2: the keys still missing after the given tiers. -/
def missAfter (fs : List (String → Option Bytes)) (keys : List String) : List String :=
  keys.filter (fun k => (firstHit fs k).isNone)

/-- Spec 4.2: the reads a tiered MGet performs - all keys against tier 0; when
tier 0 missed anything, every later tier is then queried with the keys still
missing before it (the loop has no early exit, so a tier may be queried with an
empty key list). -/
def expectedTierLog (fs : List (String → Option Bytes)) (keys : List String) : List TierCall :=
  match fs with
  | [] => []
  | f0 :: rest =>
    if keys.all (fun k => (f0 k).isSome) then [.mget 0 keys]
    else .mget 0 keys ::
      (List.range rest.length).map
        (fun j => .mget (j + 1) (missAfter ((f0 :: rest).take (j + 1)) keys))

/-- The accumulated effect of `slotLoop` on the reply vector: fold over the
queried keys, writing each hit at `keymap k`. -/
def applyHits (km : String → Nat) (f : String → Option Bytes) (ms : List String)
    (bb : List (Option Bytes)) : List (Option Bytes) :=
  ms.foldl (fun b k =>
    match f k with
    | some v => b.set (km k) (some v)
    | none => b) bb

/-! Concrete fixtures used by witnesses and counterexamples. -/

/-- A normal-mode context with the clock frozen at 0. -/
def ctxNormal0 : Ctx := { recompute := false, bypass := false, now := 0 }

/-- A bypass-all context with the clock frozen at 0. -/
def ctxBypass0 : Ctx := { recompute := false, bypass := true, now := 0 }

/-- A recompute (bypass-read) context with the clock frozen at 0. -/
def ctxRecompute0 : Ctx := { recompute := true, bypass := false, now := 0 }

/-- A store answering every key with the encoded timestamp 1. -/
def storeAllOnes : Store :=
  { mget := fun ks => .ok (ks.map (fun _ => some (marshalInt64 1))),
    set := fun _ => .ok (), del := fun _ => .ok () }

/-- A fresh namespace handle over `storeAllOnes` with one namespace key. -/
def nsAllOnes : CacheNS := NewCacheNS (NewCache storeAllOnes []) ["n"]

/-- A store answering every key with an 8-byte version prefix 3 followed by
the payload byte 7. -/
def storeVersion3 : Store :=
  { mget := fun ks => .ok (ks.map (fun _ => some (marshalInt64 3 ++ [7]))),
    set := fun _ => .ok (), del := fun _ => .ok () }

/-- A handle over `storeVersion3` whose namespace version is already resolved
to 5. -/
def nsResolved5 : CacheNS :=
  { cache := NewCache storeVersion3 [], nskeys := ["n"], nsversion := 5 }

/-- A store that misses every read and fails every write. -/
def storeSetFails : Store :=
  { mget := fun ks => .ok (ks.map (fun _ => none)),
    set := fun _ => .error (.fail 3), del := fun _ => .ok () }

/-- A fresh namespace handle over `storeSetFails`. -/
def nsSetFails : CacheNS := NewCacheNS (NewCache storeSetFails []) ["n"]

/-- Tier lookup: every key misses. -/
def tierNone : String → Option Bytes := fun _ => none

/-- Tier lookup: every key hits with the byte 1. -/
def tierOne : String → Option Bytes := fun _ => some [1]

/-- Tier lookup: only `"a"` hits. -/
def tierA : String → Option Bytes := fun k => if k = "a" then some [10] else none

/-- Tier lookup: only `"b"` hits. -/
def tierB : String → Option Bytes := fun k => if k = "b" then some [20] else none

/-- The seeding item written for the missing namespace key `"n"` when the
clock reads 0 and the namespace TTL is the 12h default. -/
def seedItem0 : Item := { Key := "n", Value := some (marshalInt64 0), TTL := 12 * hourNs }

/-! Theorems. -/

theorem digits_of_formatNat (n : Nat) :
    ∀ c ∈ (formatNat n).data, 48 ≤ c.toNat ∧ c.toNat ≤ 57 := by
  intro c hc
  rcases List.mem_map.1 hc with ⟨d, hd, rfl⟩
  have hlt := natDecimalDigits_lt n d hd
  rw [toNat_ofNat_digit d hlt]
  omega

/-- Claim C3: for every user key and resolved version, the recyclable wire key
is the ASCII string "cachebox:rk:" followed by the key verbatim, and the
versioned wire key is "cachebox:v", then the base-10 representation of the
int64 version, then ":", then the key. The version text is a genuine base-10
representation: it parses back to the version and, after the minus sign of a
negative version, consists of decimal digit characters only. -/
theorem wire_key_formats (key : String) (v : Int) :
    buildRecyclableKey key = "cachebox:rk:" ++ key ∧
    buildVersionedKey key v = "cachebox:v" ++ formatInt64 v ++ ":" ++ key ∧
    parseDecInt (formatInt64 v) = v ∧
    (∀ n : Nat, ∀ c ∈ (formatNat n).data, 48 ≤ c.toNat ∧ c.toNat ≤ 57) :=
  ⟨rfl, rfl, parseDecInt_formatInt64 v, digits_of_formatNat⟩

theorem wire_key_formats_witness :
    buildRecyclableKey "key" = "cachebox:rk:key" ∧
    buildVersionedKey "key" (-5) = "cachebox:v-5:key" ∧
    parseDecInt (formatInt64 (-5)) = -5 := by
  have h := wire_key_formats "key" (-5)
  exact ⟨h.1.trans (by decide), h.2.1.trans (by decide), h.2.2.1⟩

/-- Claim C10: with the key-lock enabled, a Set whose key has no in-flight
entry at after-write time makes `AfterSet` read the pending counter through
the nil map-lookup result: it dereferences a nil pointer and panics instead of
returning nil. -/
theorem keylock_afterset_nil_panic (c : KLState) (item : Item)
    (h : klLookup c.items item.Key = none) :
    contentionAfterSet c item = .error .panics := by
  unfold contentionAfterSet
  rw [h]

theorem keylock_afterset_nil_panic_witness :
    klLookup (KLState.mk []).items "k" = none ∧
    contentionAfterSet ⟨[]⟩ { Key := "k", Value := some [1], TTL := 0 } = .error .panics :=
  ⟨rfl, keylock_afterset_nil_panic ⟨[]⟩ { Key := "k", Value := some [1], TTL := 0 } rfl⟩

/-- Claim C8: for every byte sequence and every valid gzip level, inflating
the compressed form restores the input exactly; every non-nil input lacking
the gzip magic header passes through the after-read hook unchanged with nil
error; nil bytes pass through both hooks untouched. -/
theorem gzip_roundtrip_passthrough :
    (∀ (b : Bytes) (level : Int), gzipValidLevel level = true →
      gzipData b level = .ok (gzipEncodeStream b) ∧ gunzipData (gzipEncodeStream b) = .ok b) ∧
    (∀ b : Bytes, b.take 2 ≠ gzipMagic → gzipUncompress (some b) = .ok (some b)) ∧
    gzipUncompress none = .ok none ∧
    (∀ (level : Int) (item : Item), item.Value = none → gzipCompress level item = .ok item) := by
  refine ⟨fun b level hl => ⟨?_, ?_⟩, fun b hb => ?_, rfl, fun level item hv => ?_⟩
  · rw [gzipData, if_pos hl]
  · have htake : (gzipEncodeStream b).take 2 = gzipMagic := by
      simp [gzipEncodeStream, gzipMagic]
    have hdrop : (gzipEncodeStream b).drop 2 = b := by
      simp [gzipEncodeStream, gzipMagic]
    rw [gunzipData, gzipReadStream, if_pos htake, hdrop]
  · rw [gzipUncompress, gunzipData, gzipReadStream, if_neg hb]
  · rw [gzipCompress, hv]

theorem gzip_roundtrip_passthrough_witness :
    gzipValidLevel 6 = true ∧ ([104, 105] : Bytes).take 2 ≠ gzipMagic ∧
    gunzipData (gzipEncodeStream [104, 105]) = .ok [104, 105] ∧
    gzipUncompress (some [104, 105]) = .ok (some [104, 105]) :=
  ⟨by decide, by decide, (gzip_roundtrip_passthrough.1 [104, 105] 6 (by decide)).2,
    gzip_roundtrip_passthrough.2.1 [104, 105] (by decide)⟩

theorem newStorageWrapper_wrapper_one (i : GoStorage) (a b c : List Nat)
    (h : StorageHooks) :
    newStorageWrapper (.wrapper i a b c) [h] =
      .wrapper i (a ++ h.AfterMGet.toList) (b ++ h.BeforeSet.toList)
        (c ++ h.AfterSet.toList) := rfl

theorem wrapFold_wrapper (t : List StorageHooks) :
    ∀ (i : GoStorage) (a b c : List Nat),
    t.foldl (fun acc h => newStorageWrapper acc [h]) (.wrapper i a b c) =
      .wrapper i (a ++ t.filterMap StorageHooks.AfterMGet)
        (b ++ t.filterMap StorageHooks.BeforeSet)
        (c ++ t.filterMap StorageHooks.AfterSet) := by
  induction t with
  | nil => intro i a b c; simp
  | cons h t ih =>
    intro i a b c
    rw [List.foldl_cons, newStorageWrapper_wrapper_one, ih]
    cases hA : h.AfterMGet <;> cases hB : h.BeforeSet <;> cases hC : h.AfterSet <;>
      simp [List.filterMap_cons, hA, hB, hC]

theorem runAfterMGetChain_append
    (interp : Nat → Option Bytes → Except GoErr (Option Bytes)) :
    ∀ (c1 c2 : List Nat) (b : Option Bytes),
    runAfterMGetChain interp (c1 ++ c2) b =
      match runAfterMGetChain interp c1 b with
      | .ok b1 => runAfterMGetChain interp c2 b1
      | .error e => .error e := by
  intro c1
  induction c1 with
  | nil => intro c2 b; rfl
  | cons h t ih =>
    intro c2 b
    rw [List.cons_append, runAfterMGetChain, runAfterMGetChain]
    cases interp h b with
    | error e => rfl
    | ok b1 => exact ih c2 b1

/-- Claim C7: wrapping a plain storage N times (N at least 1) yields a single
wrapper whose inner storage is the original one - never another wrapper - and
whose after-read, before-write and after-write chains are the concatenation of
the N registrations in registration order; and running a concatenated
after-read chain runs the earlier registrations first, so hooks execute in
registration order per slot. -/
theorem wrapper_flattening (s : GoStorage) (hs : List StorageHooks)
    (hbase : ∀ inner a b c, s ≠ .wrapper inner a b c) (hne : hs ≠ []) :
    hs.foldl (fun acc h => newStorageWrapper acc [h]) s =
      .wrapper s (hs.filterMap StorageHooks.AfterMGet) (hs.filterMap StorageHooks.BeforeSet)
        (hs.filterMap StorageHooks.AfterSet) ∧
    (∀ (interp : Nat → Option Bytes → Except GoErr (Option Bytes))
      (c1 c2 : List Nat) (b : Option Bytes),
      runAfterMGetChain interp (c1 ++ c2) b =
        match runAfterMGetChain interp c1 b with
        | .ok b1 => runAfterMGetChain interp c2 b1
        | .error e => .error e) := by
  refine ⟨?_, runAfterMGetChain_append⟩
  match hs with
  | [] => exact absurd rfl hne
  | h :: t =>
    have hfirst : newStorageWrapper s [h] =
        .wrapper s h.AfterMGet.toList h.BeforeSet.toList h.AfterSet.toList := by
      match s with
      | .base id => rfl
      | .wrapper inner a b c => exact absurd rfl (hbase inner a b c)
    rw [List.foldl_cons, hfirst, wrapFold_wrapper]
    cases hA : h.AfterMGet <;> cases hB : h.BeforeSet <;> cases hC : h.AfterSet <;>
      simp [List.filterMap_cons, hA, hB, hC]

theorem wrapper_flattening_witness :
    ([⟨some 1, none, some 2⟩, ⟨some 3, some 4, none⟩] : List StorageHooks).foldl
        (fun acc h => newStorageWrapper acc [h]) (.base 0) =
      .wrapper (.base 0) [1, 3] [4] [2] :=
  (wrapper_flattening (.base 0) [⟨some 1, none, some 2⟩, ⟨some 3, some 4, none⟩]
    (fun _ _ _ _ h => GoStorage.noConfusion h) (by decide)).1

/-- Claim C5: on the cache façade, Get and GetMulti short-circuit to a miss
with no store call under recompute (bypass-read) or bypass; Set, SetMulti,
Delete and DeleteMulti short-circuit to nil with no store call under bypass;
in normal mode - and for writes and deletes also under recompute - the
operation performs exactly its real store call and surfaces the store's result
verbatim (Get returns slot 0 of its single-key MGet reply). -/
theorem cache_facade_flow_matrix :
    (∀ (c : Cache) (ctx : Ctx) (key : String), (ctx.recompute || ctx.bypass) = true →
      c.Get ctx key = (.ok none, [])) ∧
    (∀ (c : Cache) (ctx : Ctx) (keys : List String), (ctx.recompute || ctx.bypass) = true →
      c.GetMulti ctx keys = (.ok [], [])) ∧
    (∀ (c : Cache) (ctx : Ctx) (item : Item), ctx.bypass = true →
      c.Set ctx item = (.ok (), [])) ∧
    (∀ (c : Cache) (ctx : Ctx) (items : List Item), ctx.bypass = true →
      c.SetMulti ctx items = (.ok (), [])) ∧
    (∀ (c : Cache) (ctx : Ctx) (key : String), ctx.bypass = true →
      c.Delete ctx key = (.ok (), [])) ∧
    (∀ (c : Cache) (ctx : Ctx) (keys : List String), ctx.bypass = true →
      c.DeleteMulti ctx keys = (.ok (), [])) ∧
    (∀ (c : Cache) (ctx : Ctx) (key : String) (b : Option Bytes),
      ctx.recompute = false → ctx.bypass = false → c.storage.mget [key] = .ok [b] →
      c.Get ctx key = (.ok b, [.mget [key]])) ∧
    (∀ (c : Cache) (ctx : Ctx) (key : String) (e : GoErr),
      ctx.recompute = false → ctx.bypass = false → c.storage.mget [key] = .error e →
      c.Get ctx key = (.error e, [.mget [key]])) ∧
    (∀ (c : Cache) (ctx : Ctx) (keys : List String),
      ctx.recompute = false → ctx.bypass = false →
      c.GetMulti ctx keys = (c.storage.mget keys, [.mget keys])) ∧
    (∀ (c : Cache) (ctx : Ctx) (item : Item), ctx.bypass = false →
      c.Set ctx item = (c.storage.set [item], [.set [item]])) ∧
    (∀ (c : Cache) (ctx : Ctx) (items : List Item), ctx.bypass = false →
      c.SetMulti ctx items = (c.storage.set items, [.set items])) ∧
    (∀ (c : Cache) (ctx : Ctx) (key : String), ctx.bypass = false →
      c.Delete ctx key = (c.storage.del [key], [.del [key]])) ∧
    (∀ (c : Cache) (ctx : Ctx) (keys : List String), ctx.bypass = false →
      c.DeleteMulti ctx keys = (c.storage.del keys, [.del keys])) := by
  refine ⟨fun c ctx key h => ?_, fun c ctx keys h => ?_, fun c ctx item h => ?_,
    fun c ctx items h => ?_, fun c ctx key h => ?_, fun c ctx keys h => ?_,
    fun c ctx key b h1 h2 hm => ?_, fun c ctx key e h1 h2 hm => ?_,
    fun c ctx keys h1 h2 => ?_, fun c ctx item h => ?_, fun c ctx items h => ?_,
    fun c ctx key h => ?_, fun c ctx keys h => ?_⟩
  · rw [Cache.Get, if_pos h]
  · rw [Cache.GetMulti, if_pos h]
  · rw [Cache.Set, if_pos h]
  · rw [Cache.SetMulti, if_pos h]
  · rw [Cache.Delete, if_pos h]
  · rw [Cache.DeleteMulti, if_pos h]
  · rw [Cache.Get, if_neg (by rw [h1, h2]; exact Bool.false_ne_true), hm]
    rfl
  · rw [Cache.Get, if_neg (by rw [h1, h2]; exact Bool.false_ne_true), hm]
  · rw [Cache.GetMulti, if_neg (by rw [h1, h2]; exact Bool.false_ne_true)]
    cases c.storage.mget keys <;> rfl
  · rw [Cache.Set, if_neg (by rw [h]; exact Bool.false_ne_true)]
  · rw [Cache.SetMulti, if_neg (by rw [h]; exact Bool.false_ne_true)]
  · rw [Cache.Delete, if_neg (by rw [h]; exact Bool.false_ne_true)]
  · rw [Cache.DeleteMulti, if_neg (by rw [h]; exact Bool.false_ne_true)]

theorem cache_facade_flow_matrix_witness :
    (NewCache storeAllOnes []).Get ctxBypass0 "k" = (.ok none, []) ∧
    (NewCache storeAllOnes []).Get ctxRecompute0 "k" = (.ok none, []) ∧
    (NewCache storeAllOnes []).Set ctxBypass0 { Key := "k", Value := some [1], TTL := 0 } =
      (.ok (), []) ∧
    (NewCache storeAllOnes []).Get ctxNormal0 "k" =
      (.ok (some (marshalInt64 1)), [.mget ["k"]]) ∧
    (NewCache storeAllOnes []).Set ctxRecompute0 { Key := "k", Value := some [1], TTL := 0 } =
      (.ok (), [.set [{ Key := "k", Value := some [1], TTL := 0 }]]) ∧
    (NewCache storeAllOnes []).Delete ctxNormal0 "k" = (.ok (), [.del ["k"]]) := by
  have h := cache_facade_flow_matrix
  exact ⟨h.1 _ ctxBypass0 "k" rfl, h.1 _ ctxRecompute0 "k" rfl,
    h.2.2.1 _ ctxBypass0 _ rfl,
    h.2.2.2.2.2.2.1 _ ctxNormal0 "k" (some (marshalInt64 1)) rfl rfl rfl,
    h.2.2.2.2.2.2.2.2.2.1 _ ctxRecompute0 _ rfl,
    h.2.2.2.2.2.2.2.2.2.2.2.1 _ ctxNormal0 "k" rfl⟩

/-- Claim C4 counterexample: a Get on a fresh namespace handle under the
bypass-all mode performs a store MGet (its single recyclable-strategy read for
the namespace keys plus the data key) before returning the faked miss - the
claim's "zero MGet calls on the underlying store" is false on the namespace
handle. -/
theorem flow_short_circuit_counterexample :
    (nsAllOnes.Get ctxBypass0 "k").2.2 = [.mget ["n", "cachebox:rk:k"]] ∧
    (nsAllOnes.Get ctxBypass0 "k").1 = .ok none ∧
    ([StoreCall.mget ["n", "cachebox:rk:k"]] : List StoreCall) ≠ [] := by
  refine ⟨by decide, by decide, by decide⟩

/-- Claim C4 (amended): the flow-mode short-circuit happens before any store
call on the cache façade (Get/GetMulti under recompute or bypass, and
Set/SetMulti/Delete/DeleteMulti under bypass, make zero store calls) and for
Set on the namespace handle under bypass; but Get on the namespace handle
first performs its version-resolution store calls (the resolution MGet, any
namespace-seeding Set, and under the versioned strategy the data MGet) and
only then returns the faked miss (nil, nil). -/
theorem flow_short_circuit_amended :
    (∀ (c : Cache) (ctx : Ctx) (key : String), (ctx.recompute || ctx.bypass) = true →
      c.Get ctx key = (.ok none, [])) ∧
    (∀ (c : Cache) (ctx : Ctx) (keys : List String), (ctx.recompute || ctx.bypass) = true →
      c.GetMulti ctx keys = (.ok [], [])) ∧
    (∀ (c : Cache) (ctx : Ctx) (item : Item), ctx.bypass = true →
      c.Set ctx item = (.ok (), [])) ∧
    (∀ (c : Cache) (ctx : Ctx) (items : List Item), ctx.bypass = true →
      c.SetMulti ctx items = (.ok (), [])) ∧
    (∀ (c : Cache) (ctx : Ctx) (key : String), ctx.bypass = true →
      c.Delete ctx key = (.ok (), [])) ∧
    (∀ (c : Cache) (ctx : Ctx) (keys : List String), ctx.bypass = true →
      c.DeleteMulti ctx keys = (.ok (), [])) ∧
    (∀ (cns : CacheNS) (ctx : Ctx) (item : Item), ctx.bypass = true →
      cns.Set ctx item = (.ok (), cns, [])) ∧
    (∀ (cns : CacheNS) (ctx : Ctx) (key : String) (b : Option Bytes) (c1 : CacheNS)
      (log : List StoreCall), (ctx.recompute || ctx.bypass) = true →
      cns.getResolve ctx.now key = (.ok b, c1, log) →
      cns.Get ctx key = (.ok none, c1, log)) := by
  refine ⟨fun c ctx key h => by rw [Cache.Get, if_pos h],
    fun c ctx keys h => by rw [Cache.GetMulti, if_pos h],
    fun c ctx item h => by rw [Cache.Set, if_pos h],
    fun c ctx items h => by rw [Cache.SetMulti, if_pos h],
    fun c ctx key h => by rw [Cache.Delete, if_pos h],
    fun c ctx keys h => by rw [Cache.DeleteMulti, if_pos h],
    fun cns ctx item h => by rw [CacheNS.Set, if_pos h],
    fun cns ctx key b c1 log h hres => ?_⟩
  rw [CacheNS.Get, hres]
  dsimp only
  unfold CacheNS.getFinish
  rw [if_pos h]

theorem flow_short_circuit_amended_witness :
    (NewCache storeAllOnes []).GetMulti ctxRecompute0 ["k"] = (.ok [], []) ∧
    (NewCache storeAllOnes []).DeleteMulti ctxBypass0 ["k"] = (.ok (), []) ∧
    nsAllOnes.Set ctxBypass0 { Key := "k", Value := some [1], TTL := 0 } =
      (.ok (), nsAllOnes, []) ∧
    nsAllOnes.Get ctxBypass0 "k" =
      (.ok none, { nsAllOnes with nsversion := 1 }, [.mget ["n", "cachebox:rk:k"]]) := by
  have h := flow_short_circuit_amended
  refine ⟨h.2.1 _ ctxRecompute0 ["k"] rfl, h.2.2.2.2.2.1 _ ctxBypass0 ["k"] rfl,
    h.2.2.2.2.2.2.1 nsAllOnes ctxBypass0 _ rfl,
    h.2.2.2.2.2.2.2 nsAllOnes ctxBypass0 "k" (some (marshalInt64 1))
      { nsAllOnes with nsversion := 1 } [.mget ["n", "cachebox:rk:k"]] rfl ?_⟩
  rfl

theorem getResolve_cache (c : CacheNS) (now : Int) (key : String) :
    (c.getResolve now key).2.1.cache = c.cache := by
  unfold CacheNS.getResolve
  repeat' split
  all_goals dsimp only
  repeat' split
  all_goals rfl

/-- Claim C1: a Get on a namespace handle under the recyclable strategy (in
normal flow mode, where the candidate check is reached) whose candidate stored
value is non-nil splits it into the 8-byte little-endian int64 prefix
`storedVersion` and the remainder: when the handle's resolved namespace
version exceeds `storedVersion` the call misses with (nil, nil), otherwise it
returns the remainder with a nil error. -/
theorem recyclable_get_version_check (c : CacheNS) (ctx : Ctx) (key : String)
    (w : Bytes) (c1 : CacheNS) (log : List StoreCall) (version : Int) (rest : Bytes)
    (hrec : c.cache.recyclable = true)
    (h1 : ctx.recompute = false) (h2 : ctx.bypass = false)
    (hres : c.getResolve ctx.now key = (.ok (some w), c1, log))
    (hsplit : splitVersion w = .ok (version, rest)) :
    c.Get ctx key =
      (.ok (if c1.nsversion > version then none else some rest), c1, log) := by
  have hc1 : c1.cache = c.cache := by
    have hcache := getResolve_cache c ctx.now key
    rw [hres] at hcache
    exact hcache
  rw [CacheNS.Get, hres]
  dsimp only
  unfold CacheNS.getFinish
  rw [if_neg (by rw [h1, h2]; exact Bool.false_ne_true)]
  simp only [hc1, hrec, if_true, hsplit]
  split <;> rfl

theorem recyclable_get_version_check_witness :
    splitVersion (marshalInt64 3 ++ [7]) = .ok (3, [7]) ∧
    nsResolved5.Get ctxNormal0 "k" = (.ok none, nsResolved5, [.mget ["cachebox:rk:k"]]) := by
  have h := recyclable_get_version_check nsResolved5 ctxNormal0 "k" (marshalInt64 3 ++ [7])
    nsResolved5 [.mget ["cachebox:rk:k"]] 3 [7] rfl rfl rfl rfl (by decide)
  refine ⟨by decide, ?_⟩
  rw [h, if_pos (show nsResolved5.nsversion > 3 by decide)]

theorem go_if_max (a t : Int) : (if t > a then t else a) = max a t := by
  rcases le_or_lt t a with h | h
  · rw [if_neg (not_lt.2 h), max_eq_left h]
  · rw [if_pos h, max_eq_right h.le]

theorem mostRecentTimestampLoop_eq (now nsttl : Int) :
    ∀ (keys : List String) (bb : List (Option Bytes)) (acc : Int) (items : List Item),
    keys.length ≤ bb.length →
    (∀ w : Bytes, some w ∈ bb → 8 ≤ w.length) →
    mostRecentTimestampLoop now nsttl keys bb acc items =
      .ok (((bb.take keys.length).map (slotTimestamp now)).foldl max acc,
        items ++ scheduledItems now nsttl keys bb) := by
  intro keys
  induction keys with
  | nil =>
    intro bb acc items hlen hdec
    simp [mostRecentTimestampLoop, scheduledItems]
  | cons k ks ih =>
    intro bb acc items hlen hdec
    match bb with
    | [] => simp at hlen
    | none :: bs =>
      rw [mostRecentTimestampLoop]
      rw [ih bs _ _ (by simpa using hlen) (fun w hw => hdec w (List.mem_cons_of_mem _ hw))]
      rw [go_if_max]
      simp [scheduledItems, slotTimestamp, List.append_assoc]
    | some w :: bs =>
      have hu : unmarshalInt64 w = .ok (leInt64 w) := by
        rw [unmarshalInt64, if_pos (hdec w (List.mem_cons_self _ _))]
      rw [mostRecentTimestampLoop, hu]
      dsimp only
      rw [ih bs _ _ (by simpa using hlen) (fun v hv => hdec v (List.mem_cons_of_mem _ hv))]
      rw [go_if_max]
      simp [scheduledItems, slotTimestamp]

/-- Claim C2 counterexample: resolving one namespace key whose stored value
decodes to the int64 -1 yields the version 0 (the loop accumulator's initial
value), not the maximum -1 of the decoded timestamps, so the resolved version
does not always equal the maximum over i of t_i. -/
theorem namespace_version_resolution_counterexample :
    unmarshalInt64 (marshalInt64 (-1)) = .ok (-1) ∧
    (nsAllOnes.mostRecentTimestamp 0 ["n"] [some (marshalInt64 (-1))]).1 = .ok 0 ∧
    ((0 : Int) = -1 → False) :=
  ⟨by decide, by decide, by decide⟩

/-- Claim C2 (amended): the resolved version equals the maximum of the slot
timestamps t_i and of 0, the loop accumulator's initial value (for replies
whose decoded timestamps are all nonnegative this is the maximum over i of
t_i); every nil slot schedules the item (n_i, encode(t_i), default namespace
TTL); all scheduled items are written in one single Set-many call, and none
when nothing is scheduled; and when that Set fails the error is propagated to
the caller and the version is not cached on the handle (the handle is returned
unchanged, its version still unresolved). -/
theorem namespace_version_resolution_amended :
    (∀ (c : CacheNS) (now : Int) (keys : List String) (bb : List (Option Bytes)),
      keys.length ≤ bb.length → (∀ w : Bytes, some w ∈ bb → 8 ≤ w.length) →
      (scheduledItems now c.cache.nsttl keys bb = [] →
        c.mostRecentTimestamp now keys bb = (.ok (resolvedVersion now keys bb), [])) ∧
      (∀ e : GoErr, scheduledItems now c.cache.nsttl keys bb ≠ [] →
        c.cache.storage.set (scheduledItems now c.cache.nsttl keys bb) = .error e →
        c.mostRecentTimestamp now keys bb =
          (.error e, [.set (scheduledItems now c.cache.nsttl keys bb)])) ∧
      (scheduledItems now c.cache.nsttl keys bb ≠ [] →
        c.cache.storage.set (scheduledItems now c.cache.nsttl keys bb) = .ok () →
        c.mostRecentTimestamp now keys bb =
          (.ok (resolvedVersion now keys bb),
            [.set (scheduledItems now c.cache.nsttl keys bb)]))) ∧
    (∀ (c : CacheNS) (ctx : Ctx) (item : Item) (bb : List (Option Bytes)) (e : GoErr)
      (log1 : List StoreCall),
      ctx.bypass = false → c.nsversion = 0 →
      c.cache.storage.mget c.nskeys = .ok bb →
      c.mostRecentTimestamp ctx.now c.nskeys bb = (.error e, log1) →
      c.Set ctx item = (.error e, c, .mget c.nskeys :: log1)) ∧
    (∀ (c : CacheNS) (ctx : Ctx) (key : String) (bb : List (Option Bytes)) (e : GoErr)
      (log1 : List StoreCall),
      c.nsversion = 0 → c.cache.recyclable = true →
      c.cache.storage.mget (c.nskeys ++ [buildRecyclableKey key]) = .ok bb →
      c.mostRecentTimestamp ctx.now c.nskeys bb = (.error e, log1) →
      c.Get ctx key = (.error e, c, .mget (c.nskeys ++ [buildRecyclableKey key]) :: log1)) := by
  refine ⟨fun c now keys bb hlen hdec => ?_, fun c ctx item bb e log1 hb h0 hm hmrt => ?_,
    fun c ctx key bb e log1 h0 hrec hm hmrt => ?_⟩
  · have hloop := mostRecentTimestampLoop_eq now c.cache.nsttl keys bb 0 [] hlen hdec
    refine ⟨fun hs => ?_, fun e hs hset => ?_, fun hs hset => ?_⟩
    · rw [CacheNS.mostRecentTimestamp, hloop]
      dsimp only
      rw [if_neg (by simp [hs, resolvedVersion])]
      rw [resolvedVersion]
    · rw [CacheNS.mostRecentTimestamp, hloop]
      dsimp only
      rw [List.nil_append, if_pos (by simpa [List.length_pos] using hs), hset]
    · rw [CacheNS.mostRecentTimestamp, hloop]
      dsimp only
      rw [List.nil_append, if_pos (by simpa [List.length_pos] using hs), hset]
      rw [resolvedVersion]
  · rw [CacheNS.Set, if_neg (by rw [hb]; exact Bool.false_ne_true), if_pos h0, hm]
    dsimp only
    rw [hmrt]
  · rw [CacheNS.Get]
    unfold CacheNS.getResolve
    rw [if_pos h0]
    dsimp only
    rw [if_pos hrec, hm]
    dsimp only
    rw [hmrt]

theorem namespace_version_resolution_witness :
    nsAllOnes.mostRecentTimestamp 7 ["n"] [some (marshalInt64 9)] = (.ok 9, []) ∧
    nsSetFails.Set ctxNormal0 { Key := "k", Value := some [1], TTL := 0 } =
      (.error (.fail 3), nsSetFails, [.mget ["n"], .set [seedItem0]]) := by
  have h := namespace_version_resolution_amended
  constructor
  · have hdec : ∀ w : Bytes, some w ∈ [some (marshalInt64 9)] → 8 ≤ w.length := by
      intro w hw
      have heq : some w = some (marshalInt64 9) := List.mem_singleton.1 hw
      rw [Option.some.injEq] at heq
      subst heq
      decide
    have h1 := (h.1 nsAllOnes 7 ["n"] [some (marshalInt64 9)] (by decide) hdec).1 (by decide)
    exact h1.trans (by decide)
  · have hmrt : nsSetFails.mostRecentTimestamp ctxNormal0.now ["n"] [none] =
        (Except.error (GoErr.fail 3), [StoreCall.set [seedItem0]]) := by decide
    exact h.2.1 nsSetFails ctxNormal0 { Key := "k", Value := some [1], TTL := 0 } [none]
      (.fail 3) _ rfl rfl rfl hmrt

theorem slotLoop_map (km : String → Nat) (f : String → Option Bytes) :
    ∀ (ms : List String) (bb : List (Option Bytes)) (acc : List String),
    slotLoop km (ms.map f) ms bb acc =
      .ok (applyHits km f ms bb, acc ++ ms.filter (fun k => (f k).isNone)) := by
  intro ms
  induction ms with
  | nil => intro bb acc; simp [slotLoop, applyHits]
  | cons k ms ih =>
    intro bb acc
    cases hf : f k with
    | none =>
      rw [List.map_cons, hf, slotLoop, ih]
      simp [applyHits, hf]
    | some v =>
      rw [List.map_cons, hf, slotLoop, ih]
      simp [applyHits, hf]

theorem applyHits_length (km : String → Nat) (f : String → Option Bytes) :
    ∀ (ms : List String) (bb : List (Option Bytes)),
    (applyHits km f ms bb).length = bb.length := by
  intro ms
  induction ms with
  | nil => intro bb; rfl
  | cons k ms ih =>
    intro bb
    rw [applyHits, List.foldl_cons, ← applyHits]
    cases f k with
    | none => exact ih bb
    | some v => rw [ih, List.length_set]

theorem applyHits_cons (km : String → Nat) (f : String → Option Bytes) (k : String)
    (ms : List String) (bb : List (Option Bytes)) :
    applyHits km f (k :: ms) bb =
      applyHits km f ms
        (match f k with
          | some v => bb.set (km k) (some v)
          | none => bb) := rfl

theorem applyHits_getElem (keys : List String) (hnd : keys.Nodup) (km : String → Nat)
    (f : String → Option Bytes) :
    ∀ (ms : List String), ms.Nodup →
    (∀ k ∈ ms, ∃ h : km k < keys.length, keys.get ⟨km k, h⟩ = k) →
    ∀ (bb : List (Option Bytes)), bb.length = keys.length →
    ∀ (j : Nat) (hj : j < keys.length),
    (applyHits km f ms bb)[j]? =
      (if keys.get ⟨j, hj⟩ ∈ ms then
        match f (keys.get ⟨j, hj⟩) with
        | some v => some (some v)
        | none => bb[j]?
      else bb[j]?) := by
  intro ms
  induction ms with
  | nil =>
    intro _ _ bb _ j hj
    rw [if_neg (List.not_mem_nil _)]
    rfl
  | cons k ms ih =>
    intro hmnd hkm bb hlen j hj
    have hknd : k ∉ ms := (List.nodup_cons.1 hmnd).1
    have hmnd2 : ms.Nodup := (List.nodup_cons.1 hmnd).2
    have hkm2 : ∀ x ∈ ms, ∃ h : km x < keys.length, keys.get ⟨km x, h⟩ = x :=
      fun x hx => hkm x (List.mem_cons_of_mem _ hx)
    rcases hkm k (List.mem_cons_self k ms) with ⟨hklt, hkeq⟩
    rw [applyHits_cons]
    cases hf : f k with
    | none =>
      simp only [hf]
      rw [ih hmnd2 hkm2 bb hlen j hj]
      by_cases heq : keys.get ⟨j, hj⟩ = k
      · rw [if_neg (by rw [heq]; exact hknd), if_pos (by rw [heq]; exact List.mem_cons_self _ _)]
        rw [heq, hf]
      · by_cases hin : keys.get ⟨j, hj⟩ ∈ ms
        · rw [if_pos hin, if_pos (List.mem_cons_of_mem _ hin)]
        · rw [if_neg hin, if_neg (fun h => hin ((List.mem_cons.1 h).resolve_left heq))]
    | some v =>
      simp only [hf]
      have hlen1 : (bb.set (km k) (some v)).length = keys.length := by
        rw [List.length_set]; exact hlen
      rw [ih hmnd2 hkm2 _ hlen1 j hj]
      by_cases heq : keys.get ⟨j, hj⟩ = k
      · have hkmj : km k = j := by
          have hfin : (⟨km k, hklt⟩ : Fin keys.length) = ⟨j, hj⟩ :=
            (hnd.get_inj_iff).1 (hkeq.trans heq.symm)
          exact congrArg Fin.val hfin
        rw [if_neg (by rw [heq]; exact hknd), if_pos (by rw [heq]; exact List.mem_cons_self _ _)]
        rw [heq, hf, hkmj]
        rw [List.getElem?_set_eq_of_lt (some v) (by rw [hlen]; exact hj)]
      · have hne : km k ≠ j := fun hkj =>
          heq ((congrArg keys.get (Fin.ext hkj.symm)).trans hkeq)
        rw [List.getElem?_set_ne hne]
        by_cases hin : keys.get ⟨j, hj⟩ ∈ ms
        · rw [if_pos hin, if_pos (List.mem_cons_of_mem _ hin)]
        · rw [if_neg hin, if_neg (fun h => hin ((List.mem_cons.1 h).resolve_left heq))]

theorem isNone_hitOverride (g f : String → Option Bytes) (k : String) :
    (hitOverride g f k).isNone = ((g k).isNone && (f k).isNone) := by
  rw [hitOverride]
  cases g k <;> simp

theorem foldl_hitOverride_apply :
    ∀ (fs : List (String → Option Bytes)) (g : String → Option Bytes) (k : String),
    (fs.foldl hitOverride g) k =
      (match g k with
        | some v => some v
        | none => firstHit fs k) := by
  intro fs
  induction fs with
  | nil =>
    intro g k
    simp only [List.foldl_nil]
    cases g k <;> rfl
  | cons f fs ih =>
    intro g k
    rw [List.foldl_cons, ih (hitOverride g f) k]
    cases hg : g k with
    | some v => simp [hitOverride, hg]
    | none =>
      simp only [hitOverride, hg]
      rfl

theorem applyHits_filter_map (keys : List String) (hnd : keys.Nodup) (km : String → Nat)
    (g f : String → Option Bytes)
    (hkm : ∀ k ∈ keys, (g k).isNone = true →
      ∃ h : km k < keys.length, keys.get ⟨km k, h⟩ = k) :
    applyHits km f (keys.filter (fun k => (g k).isNone)) (keys.map g) =
      keys.map (hitOverride g f) := by
  have hlen : (applyHits km f (keys.filter (fun k => (g k).isNone)) (keys.map g)).length =
      (keys.map (hitOverride g f)).length := by
    rw [applyHits_length, List.length_map, List.length_map]
  apply List.ext_getElem?
  intro j
  by_cases hj : j < keys.length
  · have hkm2 : ∀ k ∈ keys.filter (fun k => (g k).isNone),
        ∃ h : km k < keys.length, keys.get ⟨km k, h⟩ = k := by
      intro k hk
      rcases List.mem_filter.1 hk with ⟨hk1, hk2⟩
      exact hkm k hk1 hk2
    rw [applyHits_getElem keys hnd km f _ (hnd.filter _) hkm2 (keys.map g)
      (List.length_map _ _) j hj]
    have hmapg : (keys.map g)[j]? = some (g keys[j]) := by
      rw [List.getElem?_map, List.getElem?_eq_getElem hj]
      rfl
    have hmapo : (keys.map (hitOverride g f))[j]? = some (hitOverride g f keys[j]) := by
      rw [List.getElem?_map, List.getElem?_eq_getElem hj]
      rfl
    rw [hmapo]
    simp only [List.get_eq_getElem]
    by_cases hgj : (g keys[j]).isNone = true
    · rw [if_pos (List.mem_filter.2 ⟨List.getElem_mem hj, hgj⟩)]
      rw [Option.isNone_iff_eq_none] at hgj
      cases hfj : f keys[j] with
      | some v => simp [hitOverride, hgj, hfj]
      | none => rw [hmapg]; simp [hitOverride, hgj, hfj]
    · have hnotmem : keys[j] ∉ keys.filter (fun k => (g k).isNone) :=
        fun hmem => hgj (List.mem_filter.1 hmem).2
      rw [if_neg hnotmem, hmapg]
      cases hgj2 : g keys[j] with
      | some v => simp [hitOverride, hgj2]
      | none => rw [hgj2] at hgj; simp at hgj
  · have h1 : (applyHits km f (keys.filter (fun k => (g k).isNone)) (keys.map g))[j]? = none := by
      rw [List.getElem?_eq_none]
      rw [applyHits_length, List.length_map]
      omega
    have h2 : (keys.map (hitOverride g f))[j]? = none := by
      rw [List.getElem?_eq_none]
      rw [List.length_map]
      omega
    rw [h1, h2]

theorem tierLoop_pointwise (keys : List String) (hnd : keys.Nodup) (km : String → Nat) :
    ∀ (fs : List (String → Option Bytes)) (ss : List Store) (g : String → Option Bytes)
      (i : Nat) (log : List TierCall),
    (∀ k ∈ keys, (g k).isNone = true → ∃ h : km k < keys.length, keys.get ⟨km k, h⟩ = k) →
    tierLoop km (fs.map mkKVStore ++ ss) i (keys.filter (fun k => (g k).isNone))
        (keys.map g) log =
      tierLoop km ss (i + fs.length)
        (keys.filter (fun k => ((fs.foldl hitOverride g) k).isNone))
        (keys.map (fs.foldl hitOverride g))
        (log ++ (List.range fs.length).map
          (fun j => .mget (i + j)
            (keys.filter (fun k => (((fs.take j).foldl hitOverride g) k).isNone)))) := by
  intro fs
  induction fs with
  | nil =>
    intro ss g i log _
    simp
  | cons f fs ih =>
    intro ss g i log hkm
    have hkm2 : ∀ k ∈ keys, ((hitOverride g f) k).isNone = true →
        ∃ h : km k < keys.length, keys.get ⟨km k, h⟩ = k := by
      intro k hk hnone
      rw [isNone_hitOverride] at hnone
      exact hkm k hk (Bool.and_eq_true _ _ ▸ hnone).1
    rw [List.map_cons, List.cons_append, tierLoop]
    have hmget : (mkKVStore f).mget (keys.filter (fun k => (g k).isNone)) =
        .ok ((keys.filter (fun k => (g k).isNone)).map f) := rfl
    rw [hmget]
    dsimp only
    rw [slotLoop_map]
    dsimp only
    rw [applyHits_filter_map keys hnd km g f hkm]
    rw [List.filter_filter]
    have hfilter : keys.filter (fun a => (f a).isNone && (g a).isNone) =
        keys.filter (fun k => ((hitOverride g f) k).isNone) := by
      refine List.filter_congr (fun k _ => ?_)
      rw [isNone_hitOverride]
      cases f k <;> cases g k <;> rfl
    rw [List.nil_append, hfilter]
    rw [ih ss (hitOverride g f) (i + 1) _ hkm2]
    rw [show i + 1 + fs.length = i + (fs.length + 1) from by omega]
    congr 1
    rw [List.length_cons, List.range_succ_eq_map, List.map_cons, List.map_map]
    rw [List.append_assoc, List.singleton_append]
    congr 1
    congr 1
    refine List.map_congr_left (fun j _ => ?_)
    simp only [Function.comp_apply]
    congr 1
    omega

theorem buildKeymapMiss_ok (keys : List String) :
    ∀ (idxs : List Nat), (∀ i ∈ idxs, i < keys.length) →
    ∀ (km0 : String → Nat) (acc : List String),
    ∃ km : String → Nat,
      buildKeymapMiss keys idxs km0 acc =
        .ok (km, acc ++ idxs.map (fun i => keys.getD i "")) ∧
      (∀ k, (∃ i ∈ idxs, keys.getD i "" = k) →
        ∃ h : km k < keys.length, keys.get ⟨km k, h⟩ = k) ∧
      (∀ s, (¬∃ i ∈ idxs, keys.getD i "" = s) → km s = km0 s) := by
  intro idxs
  induction idxs with
  | nil =>
    intro _ km0 acc
    refine ⟨km0, by simp [buildKeymapMiss], by simp, fun s _ => rfl⟩
  | cons idx rest ih =>
    intro hval km0 acc
    have hidx : idx < keys.length := hval idx (List.mem_cons_self _ _)
    have hgetD : keys.getD idx "" = keys[idx] := List.getD_eq_getElem keys "" hidx
    have hget : keys[idx]? = some (keys.getD idx "") := by
      rw [List.getElem?_eq_getElem hidx, hgetD]
    rcases ih (fun i hi => hval i (List.mem_cons_of_mem _ hi))
        (fun s => if s = keys.getD idx "" then idx else km0 s)
        (acc ++ [keys.getD idx ""]) with ⟨km, heq, hprop, hpres⟩
    refine ⟨km, ?_, ?_, ?_⟩
    · rw [buildKeymapMiss, hget]
      dsimp only
      rw [heq, List.append_assoc, List.singleton_append, List.map_cons]
    · intro k hk
      rcases hk with ⟨i, hi, hik⟩
      rcases List.mem_cons.1 hi with hieq | hirest
      · have hik0 : keys.getD idx "" = k := hieq ▸ hik
        by_cases hk0 : ∃ j ∈ rest, keys.getD j "" = k
        · exact hprop k hk0
        · have hkm : km k = idx := by
            rw [hpres k hk0, if_pos hik0.symm]
          have hfin : keys.get ⟨idx, hidx⟩ = k := by
            rw [← hik0, hgetD]
            rfl
          exact ⟨hkm.symm ▸ hidx,
            (congrArg keys.get
              (Fin.ext hkm : (⟨km k, hkm.symm ▸ hidx⟩ : Fin keys.length) = ⟨idx, hidx⟩)).trans
              hfin⟩
      · exact hprop k ⟨i, hirest, hik⟩
    · intro s hs
      have hs1 : ¬∃ i ∈ rest, keys.getD i "" = s := fun ⟨i, hi, hik⟩ =>
        hs ⟨i, List.mem_cons_of_mem _ hi, hik⟩
      have hs2 : s ≠ keys.getD idx "" := fun hcontra =>
        hs ⟨idx, List.mem_cons_self _ _, hcontra.symm⟩
      rw [hpres s hs1, if_neg hs2]

theorem decide_eq_none_eq_isNone (o : Option Bytes) : decide (o = none) = o.isNone := by
  cases o <;> rfl

theorem missIdx_map_getD (f0 : String → Option Bytes) :
    ∀ keys : List String,
    ((List.range (keys.map f0).length).filter
        (fun i => decide ((keys.map f0).getD i none = none))).map (fun i => keys.getD i "") =
      keys.filter (fun k => (f0 k).isNone) := by
  intro keys
  induction keys with
  | nil => rfl
  | cons k ks ih =>
    rw [List.map_cons, List.length_cons, List.range_succ_eq_map, List.filter_cons]
    rw [List.filter_map, List.getD_cons_zero]
    have hsucc : ((fun i => decide (((f0 k :: ks.map f0).getD i none = none))) ∘ Nat.succ) =
        (fun i => decide ((ks.map f0).getD i none = none)) := by
      funext i
      simp [List.getD_cons_succ]
    rw [hsucc]
    by_cases hf : f0 k = none
    · rw [if_pos (by rw [hf]; rfl)]
      rw [List.map_cons, List.getD_cons_zero, List.map_map]
      have hcomp : ((fun i => (k :: ks).getD i "") ∘ Nat.succ) = (fun i => ks.getD i "") := by
        funext i
        simp [List.getD_cons_succ]
      rw [hcomp, ih, List.filter_cons, if_pos (by rw [hf]; rfl)]
    · have hne : ¬(decide ((f0 k) = none)) = true := by
        simp [hf]
      rw [if_neg hne, List.map_map]
      have hcomp : ((fun i => (k :: ks).getD i "") ∘ Nat.succ) = (fun i => ks.getD i "") := by
        funext i
        simp [List.getD_cons_succ]
      rw [hcomp, ih, List.filter_cons]
      rw [if_neg (by simp [Option.isNone_iff_eq_none, hf])]

theorem missIdx_valid (f0 : String → Option Bytes) (keys : List String) :
    ∀ i ∈ (List.range (keys.map f0).length).filter
      (fun i => decide ((keys.map f0).getD i none = none)), i < keys.length := by
  intro i hi
  have := List.mem_range.1 (List.mem_filter.1 hi).1
  rw [List.length_map] at this
  exact this

theorem tierLoop_calls_mget (km : String → Nat) :
    ∀ (ss : List Store) (i : Nat) (miss : List String) (bb : List (Option Bytes))
      (log : List TierCall) (call : TierCall), call ∈ (tierLoop km ss i miss bb log).2 →
      call ∈ log ∨ ∃ t ks, call = TierCall.mget t ks := by
  intro ss
  induction ss with
  | nil =>
    intro i miss bb log call hc
    exact Or.inl hc
  | cons s ss ih =>
    intro i miss bb log call hc
    rw [tierLoop] at hc
    cases hm : s.mget miss with
    | error e =>
      rw [hm] at hc
      dsimp only at hc
      rcases List.mem_append.1 hc with h | h
      · exact Or.inl h
      · exact Or.inr ⟨i, miss, List.mem_singleton.1 h⟩
    | ok res =>
      rw [hm] at hc
      dsimp only at hc
      cases hs : slotLoop km res miss bb [] with
      | error e =>
        rw [hs] at hc
        dsimp only at hc
        rcases List.mem_append.1 hc with h | h
        · exact Or.inl h
        · exact Or.inr ⟨i, miss, List.mem_singleton.1 h⟩
      | ok pr =>
        rw [hs] at hc
        dsimp only at hc
        rcases ih (i + 1) pr.2 pr.1 (log ++ [.mget i miss]) call hc with h | h
        · rcases List.mem_append.1 h with h1 | h1
          · exact Or.inl h1
          · exact Or.inr ⟨i, miss, List.mem_singleton.1 h1⟩
        · exact Or.inr h

theorem multiStorage_calls_mget (storages : List Store) (keys : List String) :
    ∀ call ∈ (MultiStorage.MGet storages keys).2, ∃ t ks, call = TierCall.mget t ks := by
  intro call hc
  match storages with
  | [] => simp [MultiStorage.MGet] at hc
  | s0 :: rest =>
    rw [MultiStorage.MGet] at hc
    cases hm : s0.mget keys with
    | error e =>
      rw [hm] at hc
      dsimp only at hc
      exact ⟨0, keys, List.mem_singleton.1 hc⟩
    | ok bb =>
      rw [hm] at hc
      dsimp only at hc
      by_cases hmi : ((List.range bb.length).filter
          (fun i => decide (bb.getD i none = none))).length = 0
      · rw [if_pos hmi] at hc
        exact ⟨0, keys, List.mem_singleton.1 hc⟩
      · rw [if_neg hmi] at hc
        cases hb : buildKeymapMiss keys ((List.range bb.length).filter
            (fun i => decide (bb.getD i none = none))) (fun _ => 0) [] with
        | error e =>
          rw [hb] at hc
          dsimp only at hc
          exact ⟨0, keys, List.mem_singleton.1 hc⟩
        | ok pr =>
          rw [hb] at hc
          dsimp only at hc
          rcases tierLoop_calls_mget pr.1 rest 1 pr.2 bb [.mget 0 keys] call hc with h | h
          · exact ⟨0, keys, List.mem_singleton.1 h⟩
          · exact h

theorem firstHit_cons (f : String → Option Bytes) (fs : List (String → Option Bytes))
    (k : String) :
    firstHit (f :: fs) k =
      (match f k with
        | some v => some v
        | none => firstHit fs k) := rfl

theorem foldl_firstHit_filter (f0 : String → Option Bytes)
    (fs : List (String → Option Bytes)) (keys : List String) :
    keys.filter (fun k => ((fs.foldl hitOverride f0) k).isNone) =
      keys.filter (fun k => (firstHit (f0 :: fs) k).isNone) := by
  refine List.filter_congr (fun k _ => ?_)
  rw [foldl_hitOverride_apply]
  rfl

theorem foldl_firstHit_map (f0 : String → Option Bytes)
    (fs : List (String → Option Bytes)) (keys : List String) :
    keys.map (fs.foldl hitOverride f0) = keys.map (firstHit (f0 :: fs)) := by
  refine List.map_congr_left (fun k _ => ?_)
  rw [foldl_hitOverride_apply]
  rfl

theorem log_bridge (f0 : String → Option Bytes) (fs : List (String → Option Bytes))
    (keys : List String) :
    (List.range fs.length).map (fun j => TierCall.mget (1 + j)
        (keys.filter (fun k => (((fs.take j).foldl hitOverride f0) k).isNone))) =
      (List.range fs.length).map (fun j => TierCall.mget (j + 1)
        (missAfter ((f0 :: fs).take (j + 1)) keys)) := by
  refine List.map_congr_left (fun j _ => ?_)
  congr 1
  · omega
  · rw [List.take_succ_cons, missAfter]
    exact foldl_firstHit_filter f0 (fs.take j) keys

theorem multiStorage_mget_steps (f0 : String → Option Bytes)
    (fs : List (String → Option Bytes)) (ss : List Store) (keys : List String)
    (hnd : keys.Nodup) (hmiss : keys.filter (fun k => (f0 k).isNone) ≠ []) :
    ∃ km : String → Nat,
      MultiStorage.MGet ((f0 :: fs).map mkKVStore ++ ss) keys =
        tierLoop km ss (1 + fs.length)
          (keys.filter (fun k => (firstHit (f0 :: fs) k).isNone))
          (keys.map (firstHit (f0 :: fs)))
          (.mget 0 keys :: (List.range fs.length).map
            (fun j => .mget (j + 1) (missAfter ((f0 :: fs).take (j + 1)) keys))) := by
  rw [List.map_cons, List.cons_append, MultiStorage.MGet]
  have hm : (mkKVStore f0).mget keys = .ok (keys.map f0) := rfl
  rw [hm]
  dsimp only
  have hmi : ¬((List.range (keys.map f0).length).filter
      (fun i => decide ((keys.map f0).getD i none = none))).length = 0 := by
    intro h0
    rw [List.length_eq_zero] at h0
    apply hmiss
    rw [← missIdx_map_getD f0 keys, h0]
    rfl
  rw [if_neg hmi]
  rcases buildKeymapMiss_ok keys _ (missIdx_valid f0 keys) (fun _ => 0) [] with
    ⟨km, heq, hprop, _⟩
  rw [heq]
  dsimp only
  rw [List.nil_append, missIdx_map_getD f0 keys]
  refine ⟨km, ?_⟩
  have hkm : ∀ k ∈ keys, (f0 k).isNone = true →
      ∃ h : km k < keys.length, keys.get ⟨km k, h⟩ = k := by
    intro k hk hnone
    apply hprop
    have hmem : k ∈ ((List.range (keys.map f0).length).filter
        (fun i => decide ((keys.map f0).getD i none = none))).map
          (fun i => keys.getD i "") := by
      rw [missIdx_map_getD]
      exact List.mem_filter.2 ⟨hk, hnone⟩
    rcases List.mem_map.1 hmem with ⟨i, hi, hik⟩
    exact ⟨i, hi, hik⟩
  have hstep := tierLoop_pointwise keys hnd km fs ss f0 1 [.mget 0 keys] hkm
  rw [hstep]
  rw [foldl_firstHit_filter f0 fs keys, foldl_firstHit_map f0 fs keys, log_bridge f0 fs keys]
  rw [List.singleton_append]

theorem tiered_mget_pointwise_run (f0 : String → Option Bytes)
    (fs : List (String → Option Bytes)) (keys : List String) (hnd : keys.Nodup) :
    MultiStorage.MGet ((f0 :: fs).map mkKVStore) keys =
      (.ok (keys.map (firstHit (f0 :: fs))), expectedTierLog (f0 :: fs) keys) := by
  by_cases hall : keys.filter (fun k => (f0 k).isNone) = []
  · rw [List.map_cons, MultiStorage.MGet]
    have hm : (mkKVStore f0).mget keys = .ok (keys.map f0) := rfl
    rw [hm]
    dsimp only
    have hmapnil : ((List.range (keys.map f0).length).filter
        (fun i => decide ((keys.map f0).getD i none = none))).map
          (fun i => keys.getD i "") = [] := by
      rw [missIdx_map_getD, hall]
    have hmi : ((List.range (keys.map f0).length).filter
        (fun i => decide ((keys.map f0).getD i none = none))).length = 0 := by
      rw [List.map_eq_nil_iff] at hmapnil
      rw [hmapnil]
      rfl
    rw [if_pos hmi]
    have hsome : ∀ k ∈ keys, (f0 k).isSome = true := by
      intro k hk
      cases hfk : f0 k with
      | some v => rfl
      | none =>
        have hnone : (f0 k).isNone = true := by rw [hfk]; rfl
        exact absurd (List.mem_filter.2 ⟨hk, hnone⟩) (by rw [hall]; exact List.not_mem_nil k)
    have hmap : keys.map f0 = keys.map (firstHit (f0 :: fs)) := by
      refine List.map_congr_left (fun k hk => ?_)
      rw [firstHit_cons]
      cases hfk : f0 k with
      | some v => rfl
      | none =>
        have := hsome k hk
        rw [hfk] at this
        exact absurd this (by simp)
    have hlog : expectedTierLog (f0 :: fs) keys = [.mget 0 keys] := by
      rw [expectedTierLog, if_pos (List.all_eq_true.2 hsome)]
    rw [hmap, hlog]
  · rcases multiStorage_mget_steps f0 fs [] keys hnd hall with ⟨km, hrun⟩
    rw [List.append_nil] at hrun
    rw [hrun, tierLoop]
    have hcond : ¬keys.all (fun k => (f0 k).isSome) = true := by
      intro hcontra
      apply hall
      rw [List.filter_eq_nil_iff]
      intro k hk
      have := List.all_eq_true.1 hcontra k hk
      cases hfk : f0 k with
      | some v => simp
      | none => rw [hfk] at this; exact absurd this (by simp)
    rw [expectedTierLog, if_neg hcond]

theorem tiered_mget_err_later_run (f0 : String → Option Bytes)
    (fs : List (String → Option Bytes)) (sErr : Store) (rest : List Store)
    (keys : List String) (e : GoErr) (hnd : keys.Nodup)
    (hmiss : keys.filter (fun k => (f0 k).isNone) ≠ [])
    (herr : sErr.mget (missAfter (f0 :: fs) keys) = .error e) :
    MultiStorage.MGet ((f0 :: fs).map mkKVStore ++ sErr :: rest) keys =
      (.error e,
        (.mget 0 keys :: (List.range fs.length).map
          (fun j => .mget (j + 1) (missAfter ((f0 :: fs).take (j + 1)) keys))) ++
          [.mget (1 + fs.length) (missAfter (f0 :: fs) keys)]) := by
  rcases multiStorage_mget_steps f0 fs (sErr :: rest) keys hnd hmiss with ⟨km, hrun⟩
  rw [hrun, tierLoop]
  have herr2 : sErr.mget (keys.filter (fun k => (firstHit (f0 :: fs) k).isNone)) =
      .error e := herr
  rw [herr2]
  dsimp only
  rw [List.cons_append]
  rfl

/-- Claim C6 counterexample: with the duplicate key list ["a", "a"], a
first tier that misses everything and a second tier that answers "a" with a
value, the reply's slot 0 stays nil even though the second tier - the leftmost
tier returning non-nil for that key - returned a value: only the last
duplicate's slot is filled, so the claim's per-slot characterization is false. -/
theorem tiered_mget_counterexample :
    (MultiStorage.MGet [mkKVStore tierNone, mkKVStore tierOne] ["a", "a"]).1 =
      .ok [none, some [1]] ∧
    firstHit [tierNone, tierOne] "a" = some [1] ∧
    (some [1] : Option Bytes) ≠ none :=
  ⟨by decide, by decide, by decide⟩

/-- Claim C6 (amended): for every tiered MGet over tiers behaving as
positional key/value lookups and PAIRWISE-DISTINCT keys, the reply has length
N and slot i holds the value of the leftmost tier holding k_i (nil when every
tier misses), and each tier after the first is queried with exactly the keys
still missing before it, in order (tiers keep being queried, possibly with an
empty key list, unless the first tier answered everything); when any tier's
MGet errors, that error is returned immediately and no later tier is queried;
and MGet never issues a Set or Delete on any tier. -/
theorem tiered_mget_amended :
    (∀ (f0 : String → Option Bytes) (fs : List (String → Option Bytes))
      (keys : List String), keys.Nodup →
      MultiStorage.MGet ((f0 :: fs).map mkKVStore) keys =
        (.ok (keys.map (firstHit (f0 :: fs))), expectedTierLog (f0 :: fs) keys) ∧
      (keys.map (firstHit (f0 :: fs))).length = keys.length) ∧
    (∀ (e : GoErr) (s0 : Store) (rest : List Store) (keys : List String),
      s0.mget keys = .error e →
      MultiStorage.MGet (s0 :: rest) keys = (.error e, [.mget 0 keys])) ∧
    (∀ (f0 : String → Option Bytes) (fs : List (String → Option Bytes)) (sErr : Store)
      (rest : List Store) (keys : List String) (e : GoErr), keys.Nodup →
      keys.filter (fun k => (f0 k).isNone) ≠ [] →
      sErr.mget (missAfter (f0 :: fs) keys) = .error e →
      MultiStorage.MGet ((f0 :: fs).map mkKVStore ++ sErr :: rest) keys =
        (.error e,
          (.mget 0 keys :: (List.range fs.length).map
            (fun j => .mget (j + 1) (missAfter ((f0 :: fs).take (j + 1)) keys))) ++
            [.mget (1 + fs.length) (missAfter (f0 :: fs) keys)])) ∧
    (∀ (storages : List Store) (keys : List String),
      ∀ call ∈ (MultiStorage.MGet storages keys).2, ∃ t ks, call = TierCall.mget t ks) := by
  refine ⟨fun f0 fs keys hnd => ⟨tiered_mget_pointwise_run f0 fs keys hnd, List.length_map _ _⟩,
    fun e s0 rest keys h => ?_,
    fun f0 fs sErr rest keys e hnd hmiss herr =>
      tiered_mget_err_later_run f0 fs sErr rest keys e hnd hmiss herr,
    multiStorage_calls_mget⟩
  rw [MultiStorage.MGet, h]

theorem tiered_mget_amended_witness :
    MultiStorage.MGet [mkKVStore tierA, mkKVStore tierB] ["a", "b", "c"] =
      (.ok [some [10], some [20], none],
        [.mget 0 ["a", "b", "c"], .mget 1 ["b", "c"]]) ∧
    MultiStorage.MGet [mkErrStore (.fail 7), mkKVStore tierOne] ["a"] =
      (.error (.fail 7), [.mget 0 ["a"]]) := by
  have h := tiered_mget_amended
  constructor
  · have h1 := (h.1 tierA [tierB] ["a", "b", "c"] (by decide)).1
    exact h1.trans (by decide)
  · exact h.2.1 (.fail 7) (mkErrStore (.fail 7)) [mkKVStore tierOne] ["a"] rfl

end Cachebox
